import Mathlib

/-!
# Image viewer backend (`internal/viewer/service.go`)

A shallow embedding of `ImageViewerService` and of the Go library functions its two
operations call, followed by the properties of the directory picker and of the image
lister.

Conventions of the embedding.

* A Go `string` is modelled by a Lean `String`, a sequence of Unicode code points: the
  model covers the Go strings that are valid UTF-8.  On those, the byte-wise scans of
  `filepath.Ext` and `filepath.Clean` (which look only for the ASCII bytes `.` and `/`)
  and the rune-wise `strings.ToLower` act exactly as the code-point functions below.
* `path/filepath` is the Unix implementation: the separator is `/`, there is no volume
  name.
* A Go result pair `(value, error)` is a record with both components plus the list of
  calls made to the host (file system and GUI), in order.  A `nil` slice is `[]`.
* Everything the service obtains from outside the repository at run time is a field of
  `Host`.
-/

set_option autoImplicit false

namespace Viewer

/-! ## Go errors -/

/-- A Go `error` value: either a plain message (as made by `errors.New`, or any error
of the operating system or the GUI host) or a message wrapping a cause (as made by
`fmt.Errorf` with the verb `%w`). -/
inductive GoError where
  | plain (msg : String)
  | wrapped (msg : String) (cause : GoError)
  deriving DecidableEq, Repr

/-- The method `Error()`: the message of an error. -/
def GoError.Error : GoError → String
  | .plain msg => msg
  | .wrapped msg _ => msg

/-- The method `Unwrap()` as seen by `errors.Unwrap`: the wrapped cause, if any. -/
def GoError.Unwrap : GoError → Option GoError
  | .plain _ => none
  | .wrapped _ cause => some cause

/-- Go `errors.New(text)`. -/
def errorsNew (text : String) : GoError := .plain text

/-- Go `fmt.Errorf(pfx + "%w", err)`: the message is the text before the verb followed
by `err.Error()`, and the result unwraps to `err`. -/
def fmtErrorfW (pfx : String) (err : GoError) : GoError :=
  .wrapped (pfx ++ err.Error) err

/-! ### The errors of `service.go`, under the names the specification gives them -/

/-- Line 40. -/
def NotInitialized : GoError := errorsNew "コンテキストが初期化されていません"

/-- Line 49. -/
def DialogError (err : GoError) : GoError := fmtErrorfW "ディレクトリ選択エラー: " err

/-- Line 53. -/
def NoSelection : GoError := errorsNew "ディレクトリが選択されていません"

/-- Line 62. -/
def InvalidArgument : GoError := errorsNew "ディレクトリパスが指定されていません"

/-- Line 68. -/
def AccessError (err : GoError) : GoError := fmtErrorfW "ディレクトリアクセスエラー: " err

/-- Line 72. -/
def NotADirectory : GoError := errorsNew "指定されたパスはディレクトリではありません"

/-- Line 78. -/
def ReadError (err : GoError) : GoError := fmtErrorfW "ディレクトリ読み込みエラー: " err

/-- Line 96. -/
def NoImagesFound : GoError :=
  errorsNew "指定されたディレクトリに画像ファイルが見つかりません"

/-! ## The host: operating system, GUI framework, Unicode tables -/

/-- A non-nil `context.Context`: an opaque handle to the running application. -/
structure Context where
  id : Nat
  deriving DecidableEq, Repr

/-- The part of `fs.FileInfo` that the service reads. -/
structure FileInfo where
  isDir : Bool
  deriving DecidableEq, Repr

/-- The part of `os.DirEntry` that the service reads. -/
structure DirEntry where
  name : String
  isDir : Bool
  deriving DecidableEq, Repr

/-- The part of `runtime.OpenDialogOptions` that the service sets. -/
structure OpenDialogOptions where
  Title : String
  deriving DecidableEq, Repr

/-- What the service calls outside the repository.

* `stat` is `os.Stat`.
* `readDir` is `os.ReadDir`, which returns the entries it could read together with the
  error that stopped it, if any.
* `openDirectoryDialog` is `runtime.OpenDirectoryDialog` of the GUI framework.
* `lowerCase` is `unicode.To(unicode.LowerCase, r)` on the runes above `unicode.MaxASCII`:
  the lower-case mapping of the Unicode tables of the Go runtime. -/
structure Host where
  stat : String → Except GoError FileInfo
  readDir : String → List DirEntry × Option GoError
  openDirectoryDialog : Context → OpenDialogOptions → String × Option GoError
  lowerCase : Char → Char

/-- A call made to the host. -/
inductive HostCall where
  | stat (name : String)
  | readDir (name : String)
  | openDirectoryDialog (ctx : Context) (opts : OpenDialogOptions)
  deriving DecidableEq, Repr

/-- A Go result pair together with the host calls made while computing it. -/
structure Outcome (α : Type) where
  value : α
  err : Option GoError
  calls : List HostCall

/-! ## `os`, `strings`, `unicode`, `path/filepath` -/

/-- Go `os.IsPathSeparator` on Unix. -/
def IsPathSeparator (c : Char) : Bool := c == '/'

/-- The loop of `filepath.Ext`, run over the bytes of the path from the last one down:
`rev` holds `path[0..i]` reversed (so its head is `path[i]`) and `tail` is `path[i+1:]`.
The loop stops with `""` at a separator and with `path[i:]` at a dot. -/
def extLoop : List Char → List Char → List Char
  | [], _ => []
  | c :: rev, tail =>
    if IsPathSeparator c then []
    else if c = '.' then c :: tail
    else extLoop rev (c :: tail)

/-- Go `filepath.Ext`: the suffix beginning at the final dot in the final element of the
path, empty if there is no dot. -/
def Ext (path : String) : String := ⟨extLoop path.data.reverse []⟩

/-- Go `unicode.ToLower`. -/
def unicodeToLower (tbl : Char → Char) (r : Char) : Char :=
  if r.toNat ≤ 0x7F then
    if 'A'.toNat ≤ r.toNat ∧ r.toNat ≤ 'Z'.toNat then Char.ofNat (r.toNat + ('a'.toNat - 'A'.toNat))
    else r
  else tbl r

/-- The ASCII branch of `strings.ToLower`, on one byte. -/
def lowerASCIIByte (c : Char) : Char :=
  if 'A'.toNat ≤ c.toNat ∧ c.toNat ≤ 'Z'.toNat then Char.ofNat (c.toNat + ('a'.toNat - 'A'.toNat))
  else c

/-- Go `strings.Map`, on a mapping that never returns a negative rune. -/
def stringsMap (mapping : Char → Char) (s : String) : String := ⟨s.data.map mapping⟩

/-- Go `strings.ToLower`: a string of ASCII bytes is returned as it is when it has no
upper-case letter and is lowered byte by byte otherwise; any other string is mapped rune
by rune through `unicode.ToLower`. -/
def ToLower (tbl : Char → Char) (s : String) : String :=
  let isASCII := s.data.all (fun c => decide (c.toNat < 0x80))
  let hasUpper := s.data.any (fun c => decide ('A'.toNat ≤ c.toNat ∧ c.toNat ≤ 'Z'.toNat))
  if isASCII then
    if !hasUpper then s else ⟨s.data.map lowerASCIIByte⟩
  else stringsMap (unicodeToLower tbl) s

/-- The backtracking of `filepath.Clean` at a `..` element, on the output buffer held
in reverse (its head is the last byte written, its length is `out.w`): `out.w--`, then
`for out.w > dotdot && !os.IsPathSeparator(out.index(out.w)) { out.w-- }`. -/
def cleanBacktrack (dotdot : Nat) : List Char → List Char
  | [] => []
  | c :: out =>
    if dotdot < out.length ∧ ¬ IsPathSeparator c = true then cleanBacktrack dotdot out
    else out

/-- The main loop of `filepath.Clean`.  `rooted` is as in the source, `out` is the output
buffer in reverse, `dotdot` is the index where `..` must stop, and the list argument is
`path[r:]`.  With `copying = false` the loop is at the head of its `switch`; with
`copying = true` it is inside the inner loop `for ; r < n && !os.IsPathSeparator(path[r]); r++`
that copies a real path element (when that loop meets a separator, the next turn of the
main loop skips it by its first case). -/
def cleanLoop (rooted : Bool) : Bool → List Char → List Char → Nat → List Char
  | _, [], out, _ => out
  | true, c :: rest, out, dotdot =>
    if IsPathSeparator c then cleanLoop rooted false rest out dotdot
    else cleanLoop rooted true rest (c :: out) dotdot
  | false, c :: rest, out, dotdot =>
    if IsPathSeparator c then
      -- empty path element
      cleanLoop rooted false rest out dotdot
    else
      match rest with
      | [] =>
        if c = '.' then
          -- . element
          out
        else
          -- real path element
          c :: (if (rooted && out.length != 1) || (!rooted && out.length != 0)
                then '/' :: out else out)
      | c1 :: rest1 =>
        if c = '.' ∧ IsPathSeparator c1 = true then
          -- . element
          cleanLoop rooted false (c1 :: rest1) out dotdot
        else if c = '.' ∧ c1 = '.' ∧ (rest1 = [] ∨ (rest1.head?.map IsPathSeparator) = some true) then
          -- .. element: remove to last separator
          if dotdot < out.length then
            -- can backtrack
            cleanLoop rooted false rest1 (cleanBacktrack dotdot out) dotdot
          else if !rooted then
            -- cannot backtrack, but not rooted, so append .. element
            let out1 := '.' :: '.' :: (if 0 < out.length then '/' :: out else out)
            cleanLoop rooted false rest1 out1 out1.length
          else
            cleanLoop rooted false rest1 out dotdot
        else
          -- real path element: add slash if needed, copy element
          cleanLoop rooted true (c1 :: rest1)
            (c :: (if (rooted && out.length != 1) || (!rooted && out.length != 0)
                   then '/' :: out else out)) dotdot

/-- Go `filepath.Clean` on Unix (no volume name, `FromSlash` is the identity). -/
def Clean (path : String) : String :=
  match path.data with
  | [] => "."
  | c :: rest =>
    let rooted := IsPathSeparator c
    let out :=
      if rooted then cleanLoop rooted false rest ['/'] 1
      else cleanLoop rooted false (c :: rest) [] 0
    -- Turn empty string into "."
    if out.length = 0 then "." else ⟨out.reverse⟩

/-- Go `strings.Join`. -/
def stringsJoin : List String → String → String
  | [], _ => ""
  | [e], _ => e
  | e :: es, sep => e ++ sep ++ stringsJoin es sep

/-- Go `filepath.Join` on Unix, on the list of its arguments: the elements from the first
non-empty one on are joined with the separator and the result is cleaned. -/
def Join : List String → String
  | [] => ""
  | e :: es => if e ≠ "" then Clean (stringsJoin (e :: es) "/") else Join es

/-- Go `filepath.IsAbs` on Unix: `strings.HasPrefix(path, "/")`. -/
def IsAbs (path : String) : Bool :=
  match path.data with
  | c :: _ => c == '/'
  | [] => false

/-! ## `internal/viewer/service.go` -/

/-- The map literal `supportedExtensions` (lines 15-20), as its list of entries. -/
def supportedExtensionsEntries : List (String × Bool) :=
  [(".jpg", true), (".jpeg", true), (".png", true), (".gif", true)]

/-- The map index expression `supportedExtensions[extension]`: the value stored under the
key, and the zero value `false` for a key that is absent. -/
def supportedExtensions (extension : String) : Bool :=
  (supportedExtensionsEntries.lookup extension).getD false

/-- The struct `ImageViewerService`; the field `ctx` is a `context.Context`, an interface
value that may be `nil`. -/
structure ImageViewerService where
  ctx : Option Context
  deriving DecidableEq, Repr

/-- The function `NewImageViewerService`: `&ImageViewerService{}`. -/
def NewImageViewerService : ImageViewerService := { ctx := none }

/-- The method `OnStartup`: `s.ctx = ctx`. -/
def OnStartup (_s : ImageViewerService) (ctx : Option Context) : ImageViewerService :=
  { ctx := ctx }

/-- The method `SelectDirectory` (lines 38-57). -/
def SelectDirectory (host : Host) (s : ImageViewerService) : Outcome String :=
  match s.ctx with
  | none => { value := "", err := some (errorsNew "コンテキストが初期化されていません"), calls := [] }
  | some ctx =>
    let opts : OpenDialogOptions := { Title := "画像フォルダを選択" }
    let calls := [HostCall.openDirectoryDialog ctx opts]
    match host.openDirectoryDialog ctx opts with
    | (_, some err) =>
      { value := "", err := some (fmtErrorfW "ディレクトリ選択エラー: " err), calls := calls }
    | (directory, none) =>
      if directory = "" then
        { value := "", err := some (errorsNew "ディレクトリが選択されていません"), calls := calls }
      else
        { value := directory, err := none, calls := calls }

/-- The loop of `GetImageFiles` (lines 84-93) over the entries still to visit, with the
slice `imagePaths` built so far. -/
def imagePathsLoop (host : Host) (directoryPath : String) :
    List DirEntry → List String → List String
  | [], imagePaths => imagePaths
  | entry :: entries, imagePaths =>
    if entry.isDir then
      imagePathsLoop host directoryPath entries imagePaths
    else
      let extension := ToLower host.lowerCase (Ext entry.name)
      if supportedExtensions extension then
        imagePathsLoop host directoryPath entries
          (imagePaths ++ [Join [directoryPath, entry.name]])
      else
        imagePathsLoop host directoryPath entries imagePaths

/-- The method `GetImageFiles` (lines 60-100). -/
def GetImageFiles (host : Host) (_s : ImageViewerService) (directoryPath : String) :
    Outcome (List String) :=
  if directoryPath = "" then
    { value := [], err := some (errorsNew "ディレクトリパスが指定されていません"), calls := [] }
  else
    match host.stat directoryPath with
    | .error err =>
      { value := [], err := some (fmtErrorfW "ディレクトリアクセスエラー: " err),
        calls := [.stat directoryPath] }
    | .ok fileInfo =>
      if !fileInfo.isDir then
        { value := [], err := some (errorsNew "指定されたパスはディレクトリではありません"),
          calls := [.stat directoryPath] }
      else
        match host.readDir directoryPath with
        | (_, some err) =>
          { value := [], err := some (fmtErrorfW "ディレクトリ読み込みエラー: " err),
            calls := [.stat directoryPath, .readDir directoryPath] }
        | (entries, none) =>
          let imagePaths := imagePathsLoop host directoryPath entries []
          if imagePaths.length = 0 then
            { value := [],
              err := some (errorsNew "指定されたディレクトリに画像ファイルが見つかりません"),
              calls := [.stat directoryPath, .readDir directoryPath] }
          else
            { value := imagePaths, err := none,
              calls := [.stat directoryPath, .readDir directoryPath] }

/-! ## Hosts used as concrete inputs -/

/-- The error `os.Stat` returns for a path that does not exist. -/
def errNotExist : GoError := .plain "no such file or directory"

/-- A host whose file system holds one directory, known as `/photos` and (relative to the
working directory) as `photos`, with the given entries, and one regular file
`/photos/a.png`; nothing else exists.  Its directory dialog returns `dialog`, and its
lower-case table moves no rune. -/
def photosHost (entries : List DirEntry) (dialog : String × Option GoError) : Host where
  stat := fun name =>
    if name = "/photos" ∨ name = "photos" then .ok { isDir := true }
    else if name = "/photos/a.png" then .ok { isDir := false }
    else .error errNotExist
  readDir := fun name =>
    if name = "/photos" ∨ name = "photos" then (entries, none)
    else ([], some errNotExist)
  openDirectoryDialog := fun _ _ => dialog
  lowerCase := fun r => r

/-- The directory of section 8 of the specification: `a.png`, `b.txt`, `C.JPG` and a
subdirectory `sub`. -/
def mixedEntries : List DirEntry :=
  [{ name := "a.png", isDir := false }, { name := "b.txt", isDir := false },
   { name := "C.JPG", isDir := false }, { name := "sub", isDir := true }]

/-- Regular files named `png`, `a.png.txt`, `a.txt.png` and `.png`. -/
def dotEntries : List DirEntry :=
  [{ name := "png", isDir := false }, { name := "a.png.txt", isDir := false },
   { name := "a.txt.png", isDir := false }, { name := ".png", isDir := false }]

/-- Regular files whose names differ in the case of their extension. -/
def caseEntries : List DirEntry :=
  [{ name := "a.PNG", isDir := false }, { name := "a.Png", isDir := false },
   { name := "a.png", isDir := false }, { name := "a.TXT", isDir := false },
   { name := "a.txt", isDir := false }]

/-! ## Definitions on the side of the specification -/

/-- Spec side: the suffix of a list of characters that starts at its last dot. -/
def lastDotSuffixChars : List Char → Option (List Char)
  | [] => none
  | c :: cs =>
    match lastDotSuffixChars cs with
    | some t => some t
    | none => if c = '.' then some (c :: cs) else none

/-- Spec side: the suffix of a name that starts at its last dot, if it has a dot. -/
def lastDotSuffix (name : String) : Option String :=
  (lastDotSuffixChars name.data).map String.mk

/-- Spec side: an ASCII letter, `A` to `Z` (65 to 90) or `a` to `z` (97 to 122). -/
def isASCIILetter (c : Char) : Bool :=
  (65 ≤ c.toNat && c.toNat ≤ 90) || (97 ≤ c.toNat && c.toNat ≤ 122)

/-- Spec side: two characters that are equal, or are the two cases of one ASCII letter. -/
def asciiCaseVariantChar (c d : Char) : Bool :=
  c == d ||
    (isASCIILetter c && isASCIILetter d &&
      (c.toNat + 32 == d.toNat || d.toNat + 32 == c.toNat))

/-- Spec side, on lists of characters. -/
def asciiCaseVariantChars : List Char → List Char → Bool
  | [], [] => true
  | c :: cs, d :: ds => asciiCaseVariantChar c d && asciiCaseVariantChars cs ds
  | _, _ => false

/-- Spec side: the second name is obtained from the first by changing only the case of
ASCII letters. -/
def asciiCaseVariant (n n1 : String) : Bool := asciiCaseVariantChars n.data n1.data

/-! ## Properties -/

/-! ### Argument and path validation -/

/-- C3: for the empty path `GetImageFiles` fails with `InvalidArgument`, returns no list
and makes no call to the host (neither `os.Stat` nor `os.ReadDir`); the outcome is the
same on every host and every service value. -/
theorem GetImageFiles_empty_path (host : Host) (s : ImageViewerService) :
    (GetImageFiles host s "").err = some InvalidArgument ∧
    (GetImageFiles host s "").value = [] ∧
    (GetImageFiles host s "").calls = [] ∧
    ∀ (host1 : Host) (s1 : ImageViewerService),
      GetImageFiles host1 s1 "" = GetImageFiles host s "" := by
  refine ⟨rfl, rfl, rfl, ?_⟩
  intro host1 s1
  rfl

/-- C4: for a non-empty path on which `os.Stat` fails with error `e`, `GetImageFiles`
fails with `AccessError` whose wrapped cause is exactly `e`, returns no list, and the
only call it makes to the host is that `os.Stat` (the directory is not enumerated). -/
theorem GetImageFiles_stat_error (host : Host) (s : ImageViewerService)
    (directoryPath : String) (e : GoError)
    (hne : directoryPath ≠ "") (hstat : host.stat directoryPath = .error e) :
    (GetImageFiles host s directoryPath).err = some (AccessError e) ∧
    (AccessError e).Unwrap = some e ∧
    (GetImageFiles host s directoryPath).value = [] ∧
    (GetImageFiles host s directoryPath).calls = [HostCall.stat directoryPath] ∧
    ∀ name, HostCall.readDir name ∉ (GetImageFiles host s directoryPath).calls := by
  simp [GetImageFiles, hne, hstat, AccessError, fmtErrorfW, GoError.Unwrap]

/-- C4, on a path that does not exist. -/
theorem GetImageFiles_stat_error_witness :
    ("/missing" : String) ≠ "" ∧
    (photosHost mixedEntries ("", none)).stat "/missing" = .error errNotExist ∧
    (GetImageFiles (photosHost mixedEntries ("", none)) NewImageViewerService "/missing").err
      = some (AccessError errNotExist) ∧
    (GetImageFiles (photosHost mixedEntries ("", none)) NewImageViewerService "/missing").calls
      = [HostCall.stat "/missing"] :=
  have h := GetImageFiles_stat_error (photosHost mixedEntries ("", none))
    NewImageViewerService "/missing" errNotExist (by decide) rfl
  ⟨by decide, rfl, h.1, h.2.2.2.1⟩

/-- C5: for a non-empty path on which `os.Stat` succeeds and reports a non-directory,
`GetImageFiles` fails with `NotADirectory`, returns no list, and the only call it makes
to the host is that `os.Stat` (the path is not enumerated). -/
theorem GetImageFiles_not_a_directory (host : Host) (s : ImageViewerService)
    (directoryPath : String) (fileInfo : FileInfo)
    (hne : directoryPath ≠ "") (hstat : host.stat directoryPath = .ok fileInfo)
    (hfile : fileInfo.isDir = false) :
    (GetImageFiles host s directoryPath).err = some NotADirectory ∧
    (GetImageFiles host s directoryPath).value = [] ∧
    (GetImageFiles host s directoryPath).calls = [HostCall.stat directoryPath] ∧
    ∀ name, HostCall.readDir name ∉ (GetImageFiles host s directoryPath).calls := by
  simp [GetImageFiles, hne, hstat, hfile, NotADirectory]

/-- C5, on the regular file `/photos/a.png`. -/
theorem GetImageFiles_not_a_directory_witness :
    ("/photos/a.png" : String) ≠ "" ∧
    (photosHost mixedEntries ("", none)).stat "/photos/a.png" = .ok { isDir := false } ∧
    (GetImageFiles (photosHost mixedEntries ("", none)) NewImageViewerService
      "/photos/a.png").err = some NotADirectory ∧
    (GetImageFiles (photosHost mixedEntries ("", none)) NewImageViewerService
      "/photos/a.png").calls = [HostCall.stat "/photos/a.png"] :=
  have h := GetImageFiles_not_a_directory (photosHost mixedEntries ("", none))
    NewImageViewerService "/photos/a.png" { isDir := false } (by decide) rfl rfl
  ⟨by decide, rfl, h.1, h.2.2.1⟩

/-! ### The directory picker -/

/-- C7: on the service made by `NewImageViewerService` (no `OnStartup` yet, context
`nil`) `SelectDirectory` fails with `NotInitialized`, returns the empty string and does
not call the directory dialog; after `OnStartup` with a non-nil context it never fails
with `NotInitialized`. -/
theorem SelectDirectory_not_initialized (host : Host) :
    (SelectDirectory host NewImageViewerService).err = some NotInitialized ∧
    (SelectDirectory host NewImageViewerService).value = "" ∧
    (SelectDirectory host NewImageViewerService).calls = [] ∧
    ∀ (s : ImageViewerService) (ctx : Context),
      (SelectDirectory host (OnStartup s (some ctx))).err ≠ some NotInitialized := by
  refine ⟨rfl, rfl, rfl, ?_⟩
  intro s ctx
  simp only [SelectDirectory, OnStartup]
  rcases hd : host.openDirectoryDialog ctx { Title := "画像フォルダを選択" } with ⟨d, _ | e⟩
  · by_cases hempty : d = ""
    · simp only [hempty, if_true]
      decide
    · simp [hempty]
  · simp [NotInitialized, errorsNew, fmtErrorfW]

/-- C8: on an initialised service the result of `SelectDirectory` is decided by what the
dialog returns: an error `e` gives `DialogError` wrapping exactly `e` (whatever the path
returned with it), no error and an empty path give `NoSelection`, no error and a
non-empty path `d` give success with `d` unchanged; so a success never carries an empty
path. -/
theorem SelectDirectory_outcomes (host : Host) (s : ImageViewerService) (ctx : Context)
    (hinit : s.ctx = some ctx) :
    (∀ d e, host.openDirectoryDialog ctx { Title := "画像フォルダを選択" } = (d, some e) →
      (SelectDirectory host s).err = some (DialogError e) ∧
      (DialogError e).Unwrap = some e ∧ (SelectDirectory host s).value = "") ∧
    (host.openDirectoryDialog ctx { Title := "画像フォルダを選択" } = ("", none) →
      (SelectDirectory host s).err = some NoSelection ∧ (SelectDirectory host s).value = "") ∧
    (∀ d, d ≠ "" → host.openDirectoryDialog ctx { Title := "画像フォルダを選択" } = (d, none) →
      (SelectDirectory host s).err = none ∧ (SelectDirectory host s).value = d) ∧
    ((SelectDirectory host s).err = none → (SelectDirectory host s).value ≠ "") ∧
    (SelectDirectory host s).calls
      = [HostCall.openDirectoryDialog ctx { Title := "画像フォルダを選択" }] := by
  refine ⟨?_, ?_, ?_, ?_, ?_⟩
  · intro d e hd
    simp [SelectDirectory, hinit, hd, DialogError, fmtErrorfW, GoError.Unwrap]
  · intro hd
    simp [SelectDirectory, hinit, hd, NoSelection]
  · intro d hne hd
    simp [SelectDirectory, hinit, hd, hne]
  · simp only [SelectDirectory, hinit]
    rcases hd : host.openDirectoryDialog ctx { Title := "画像フォルダを選択" } with ⟨d, _ | e⟩
    · by_cases hempty : d = ""
      · simp [hempty]
      · simp [hempty]
    · simp
  · simp only [SelectDirectory, hinit]
    rcases hd : host.openDirectoryDialog ctx { Title := "画像フォルダを選択" } with ⟨d, _ | e⟩
    · by_cases hempty : d = ""
      · simp [hempty]
      · simp [hempty]
    · simp

/-- C8, on a dialog that returns the path `/photos`. -/
theorem SelectDirectory_outcomes_witness :
    (OnStartup NewImageViewerService (some { id := 1 })).ctx = some { id := 1 } ∧
    (SelectDirectory (photosHost [] ("/photos", none))
      (OnStartup NewImageViewerService (some { id := 1 }))).err = none ∧
    (SelectDirectory (photosHost [] ("/photos", none))
      (OnStartup NewImageViewerService (some { id := 1 }))).value = "/photos" :=
  ⟨rfl, (SelectDirectory_outcomes (photosHost [] ("/photos", none))
      (OnStartup NewImageViewerService (some { id := 1 })) { id := 1 } rfl).2.2.1
      "/photos" (by decide) rfl⟩

/-! ### The image lister: which entries are returned -/

/-- The map lookup is membership in the set of the four keys. -/
theorem supportedExtensions_iff (extension : String) :
    supportedExtensions extension = true ↔
      extension ∈ [".jpg", ".jpeg", ".png", ".gif"] := by
  unfold supportedExtensions supportedExtensionsEntries
  by_cases h1 : extension = ".jpg"
  · subst h1; decide
  by_cases h2 : extension = ".jpeg"
  · subst h2; decide
  by_cases h3 : extension = ".png"
  · subst h3; decide
  by_cases h4 : extension = ".gif"
  · subst h4; decide
  have e1 : (extension == ".jpg") = false := by simpa using h1
  have e2 : (extension == ".jpeg") = false := by simpa using h2
  have e3 : (extension == ".png") = false := by simpa using h3
  have e4 : (extension == ".gif") = false := by simpa using h4
  simp [List.lookup, e1, e2, e3, e4, h1, h2, h3, h4]

/-- The loop appends, to what it was given, the joined paths of the entries that pass
its two tests, in the order of the entries. -/
theorem imagePathsLoop_eq (host : Host) (directoryPath : String) (entries : List DirEntry)
    (imagePaths : List String) :
    imagePathsLoop host directoryPath entries imagePaths =
      imagePaths ++
        (entries.filter (fun e =>
            !e.isDir && supportedExtensions (ToLower host.lowerCase (Ext e.name)))).map
          (fun e => Join [directoryPath, e.name]) := by
  induction entries generalizing imagePaths with
  | nil => simp [imagePathsLoop]
  | cons entry entries ih =>
    unfold imagePathsLoop
    by_cases hd : entry.isDir = true
    · simp [hd, ih]
    · by_cases hs : supportedExtensions (ToLower host.lowerCase (Ext entry.name)) = true
      · simp [hd, hs, ih]
      · simp [hd, hs, ih]

/-- On a directory that is enumerated without error, the list returned (empty when the
call fails) holds the joined paths of the kept entries, and the call fails exactly when
that list is empty. -/
theorem GetImageFiles_enumerated (host : Host) (s : ImageViewerService)
    (directoryPath : String) (fileInfo : FileInfo) (entries : List DirEntry)
    (hne : directoryPath ≠ "") (hstat : host.stat directoryPath = .ok fileInfo)
    (hdir : fileInfo.isDir = true) (hread : host.readDir directoryPath = (entries, none)) :
    (GetImageFiles host s directoryPath).value =
      (entries.filter (fun e =>
          !e.isDir && supportedExtensions (ToLower host.lowerCase (Ext e.name)))).map
        (fun e => Join [directoryPath, e.name]) ∧
    (GetImageFiles host s directoryPath).err =
      (if (GetImageFiles host s directoryPath).value = [] then some NoImagesFound else none) ∧
    (GetImageFiles host s directoryPath).calls =
      [HostCall.stat directoryPath, HostCall.readDir directoryPath] := by
  simp only [GetImageFiles, hne, hstat, hdir, hread, if_false, Bool.not_true,
    imagePathsLoop_eq, List.nil_append, Bool.false_eq_true]
  split
  · rename_i h
    rw [List.length_eq_zero] at h
    simp [h, NoImagesFound]
  · rename_i h
    rw [List.length_eq_zero] at h
    simp [h]

/-- C1: on a non-empty path that stats as a directory and is enumerated without error
with entries `E`, the list `GetImageFiles` returns is exactly the list of
`filepath.Join(directoryPath, e.Name)` for the entries `e` of `E` that are not directories
and whose lowered extension is one of `.jpg`, `.jpeg`, `.png`, `.gif`, in the order of
`E` and with the same multiplicity.  This holds of every such call, so of every
successful one (a call that fails with `NoImagesFound` returns no list, and then the
list on the right is empty too). -/
theorem GetImageFiles_lists_supported (host : Host) (s : ImageViewerService)
    (directoryPath : String) (fileInfo : FileInfo) (E : List DirEntry)
    (hne : directoryPath ≠ "") (hstat : host.stat directoryPath = .ok fileInfo)
    (hdir : fileInfo.isDir = true) (hread : host.readDir directoryPath = (E, none)) :
    (GetImageFiles host s directoryPath).value =
      (E.filter (fun e =>
          !e.isDir &&
          decide (ToLower host.lowerCase (Ext e.name) ∈ [".jpg", ".jpeg", ".png", ".gif"]))).map
        (fun e => Join [directoryPath, e.name]) := by
  have hsame : (fun e : DirEntry =>
        !e.isDir && supportedExtensions (ToLower host.lowerCase (Ext e.name))) =
      (fun e : DirEntry =>
        !e.isDir &&
        decide (ToLower host.lowerCase (Ext e.name) ∈ [".jpg", ".jpeg", ".png", ".gif"])) := by
    funext e
    congr 1
    rw [Bool.eq_iff_iff, supportedExtensions_iff, decide_eq_true_iff]
  rw [(GetImageFiles_enumerated host s directoryPath fileInfo E hne hstat hdir hread).1, hsame]

/-- C1, on the directory of section 8 of the specification: `a.png` and `C.JPG` are
returned, in that order; `b.txt` and the subdirectory are not. -/
theorem GetImageFiles_lists_supported_witness :
    ("/photos" : String) ≠ "" ∧
    (photosHost mixedEntries ("", none)).stat "/photos" = .ok { isDir := true } ∧
    (photosHost mixedEntries ("", none)).readDir "/photos" = (mixedEntries, none) ∧
    (GetImageFiles (photosHost mixedEntries ("", none)) NewImageViewerService "/photos").err
      = none ∧
    (GetImageFiles (photosHost mixedEntries ("", none)) NewImageViewerService "/photos").value
      = ["/photos/a.png", "/photos/C.JPG"] :=
  ⟨by decide, rfl, rfl, by decide,
    (GetImageFiles_lists_supported (photosHost mixedEntries ("", none)) NewImageViewerService
      "/photos" { isDir := true } mixedEntries (by decide) rfl rfl rfl).trans
      (by decide)⟩

/-- C2: on a non-empty path that stats as a directory and is enumerated without error,
`GetImageFiles` fails with `NoImagesFound` if and only if no entry that is not a directory
has a supported extension; a successful call never returns an empty list; a directory
that holds only subdirectories yields `NoImagesFound` whatever their names. -/
theorem GetImageFiles_no_images_iff (host : Host) (s : ImageViewerService)
    (directoryPath : String) (fileInfo : FileInfo) (E : List DirEntry)
    (hne : directoryPath ≠ "") (hstat : host.stat directoryPath = .ok fileInfo)
    (hdir : fileInfo.isDir = true) (hread : host.readDir directoryPath = (E, none)) :
    ((GetImageFiles host s directoryPath).err = some NoImagesFound ↔
      ∀ e ∈ E, e.isDir = false →
        ToLower host.lowerCase (Ext e.name) ∉ [".jpg", ".jpeg", ".png", ".gif"]) ∧
    ((GetImageFiles host s directoryPath).err = none →
      (GetImageFiles host s directoryPath).value ≠ []) ∧
    ((∀ e ∈ E, e.isDir = true) →
      (GetImageFiles host s directoryPath).err = some NoImagesFound ∧
      (GetImageFiles host s directoryPath).value = []) := by
  obtain ⟨hval, herr, _⟩ :=
    GetImageFiles_enumerated host s directoryPath fileInfo E hne hstat hdir hread
  have hempty : (GetImageFiles host s directoryPath).value = [] ↔
      ∀ e ∈ E, e.isDir = false →
        ToLower host.lowerCase (Ext e.name) ∉ [".jpg", ".jpeg", ".png", ".gif"] := by
    rw [hval, List.map_eq_nil_iff, List.filter_eq_nil_iff]
    constructor
    · intro h e he hfile hmem
      apply h e he
      simp [hfile, (supportedExtensions_iff _).2 hmem]
    · intro h e he hkeep
      simp only [Bool.and_eq_true, Bool.not_eq_true'] at hkeep
      exact h e he hkeep.1 ((supportedExtensions_iff _).1 hkeep.2)
  refine ⟨?_, ?_, ?_⟩
  · rw [herr, ← hempty]
    by_cases hv : (GetImageFiles host s directoryPath).value = []
    · simp [hv]
    · simp [hv]
  · intro hnone hv
    rw [herr, if_pos hv] at hnone
    exact Option.noConfusion hnone
  · intro hall
    have hv : (GetImageFiles host s directoryPath).value = [] := by
      rw [hempty]
      intro e he hfile
      rw [hall e he] at hfile
      exact Bool.noConfusion hfile
    exact ⟨by rw [herr, if_pos hv], hv⟩

/-- C2, on a directory whose only entry is a subdirectory named `photos.png`. -/
theorem GetImageFiles_no_images_iff_witness :
    ("/photos" : String) ≠ "" ∧
    (photosHost [{ name := "photos.png", isDir := true }] ("", none)).stat "/photos"
      = .ok { isDir := true } ∧
    (photosHost [{ name := "photos.png", isDir := true }] ("", none)).readDir "/photos"
      = ([{ name := "photos.png", isDir := true }], none) ∧
    (GetImageFiles (photosHost [{ name := "photos.png", isDir := true }] ("", none))
      NewImageViewerService "/photos").err = some NoImagesFound ∧
    (GetImageFiles (photosHost [{ name := "photos.png", isDir := true }] ("", none))
      NewImageViewerService "/photos").value = [] :=
  ⟨by decide, rfl, rfl,
    (GetImageFiles_no_images_iff (photosHost [{ name := "photos.png", isDir := true }] ("", none))
      NewImageViewerService "/photos" { isDir := true }
      [{ name := "photos.png", isDir := true }] (by decide) rfl rfl rfl).2.2
      (by decide)⟩

/-! ### The image lister: the form of the returned paths -/

theorem getLast?_cons_of_getLast? {c d : Char} {out : List Char}
    (h : out.getLast? = some d) : (c :: out).getLast? = some d := by
  cases out with
  | nil => simp at h
  | cons a out => simpa [List.getLast?_cons_cons] using h

theorem getLast?_ite_of_getLast? {d : Char} {out : List Char}
    (h : out.getLast? = some d) (b : Prop) [Decidable b] :
    (if b then '/' :: out else out).getLast? = some d := by
  split
  · exact getLast?_cons_of_getLast? h
  · exact h

theorem cleanBacktrack_getLast (dotdot : Nat) (h1 : 1 ≤ dotdot) :
    ∀ out : List Char, dotdot < out.length → out.getLast? = some '/' →
      (cleanBacktrack dotdot out).getLast? = some '/' := by
  intro out
  induction out with
  | nil => intro h; simp at h
  | cons c out ih =>
    intro hlen hlast
    have hne : out ≠ [] := by
      intro h
      subst h
      simp at hlen
      omega
    have hout : out.getLast? = some '/' := by
      cases out with
      | nil => exact absurd rfl hne
      | cons a out => simpa [List.getLast?_cons_cons] using hlast
    unfold cleanBacktrack
    split
    · rename_i h
      exact ih h.1 hout
    · exact hout

theorem cleanLoop_rooted (n : Nat) :
    ∀ (rest : List Char) (copying : Bool) (out : List Char), rest.length ≤ n →
      out.getLast? = some '/' →
      (cleanLoop true copying rest out 1).getLast? = some '/' := by
  induction n with
  | zero =>
    intro rest copying out hlen hout
    have : rest = [] := List.length_eq_zero.mp (Nat.le_zero.mp hlen)
    subst this
    cases copying <;> simpa [cleanLoop] using hout
  | succ n ih =>
    intro rest copying out hlen hout
    cases rest with
    | nil => cases copying <;> simpa [cleanLoop] using hout
    | cons c rest =>
      have hrest : rest.length ≤ n := by simpa using hlen
      cases copying with
      | true =>
        rw [cleanLoop]
        split
        · exact ih rest false out hrest hout
        · exact ih rest true (c :: out) hrest (getLast?_cons_of_getLast? hout)
      | false =>
        cases rest with
        | nil =>
          simp only [cleanLoop]
          split
          · exact hout
          · split
            · exact hout
            · exact getLast?_cons_of_getLast? (getLast?_ite_of_getLast? hout _)
        | cons c1 rest1 =>
          have hrest1 : rest1.length ≤ n := by
            simp at hrest
            omega
          simp only [cleanLoop]
          split
          · exact ih _ false out hrest hout
          · split
            · exact ih _ false out hrest hout
            · split
              · split
                · rename_i hb
                  exact ih _ false _ hrest1 (cleanBacktrack_getLast 1 (le_refl 1) out hb hout)
                · simp only [Bool.not_true, Bool.false_eq_true, if_false]
                  exact ih _ false out hrest1 hout
              · split
                · exact ih _ false _ hrest1
                    (getLast?_cons_of_getLast? (getLast?_ite_of_getLast? hout _))
                · exact ih _ true _ hrest1
                    (getLast?_cons_of_getLast?
                      (getLast?_cons_of_getLast? (getLast?_ite_of_getLast? hout _)))

theorem Clean_isAbs (path : String) (h : IsAbs path = true) : IsAbs (Clean path) = true := by
  unfold IsAbs at h
  unfold Clean
  cases hp : path.data with
  | nil => simp [hp] at h
  | cons c rest =>
    rw [hp] at h
    simp only at h
    have hsep : IsPathSeparator c = true := h
    simp only [hsep, if_true]
    have hinv := cleanLoop_rooted rest.length rest false ['/'] (le_refl _) rfl
    cases hout : cleanLoop true false rest ['/'] 1 with
    | nil => rw [hout] at hinv; simp at hinv
    | cons a out =>
      rw [hout] at hinv
      have hlast : (a :: out).getLast (by simp) = '/' := by
        rw [List.getLast?_eq_getLast _ (by simp)] at hinv
        exact Option.some.inj hinv
      have hrev : (a :: out).reverse = '/' :: (a :: out).reverse.tail := by
        have hne : (a :: out).reverse ≠ [] := by simp
        have hh : (a :: out).reverse.head hne = '/' := by
          rw [List.head_reverse]
          exact hlast
        rw [← hh]
        exact (List.head_cons_tail _ hne).symm
      simp only [List.length_cons, Nat.add_one_ne_zero, if_false]
      unfold IsAbs
      simp only
      rw [hrev]
      rfl

theorem Join_isAbs (directoryPath name : String) (h : IsAbs directoryPath = true) :
    IsAbs (Join [directoryPath, name]) = true := by
  have hne : directoryPath ≠ "" := by
    intro he
    subst he
    simp [IsAbs] at h
  unfold Join
  rw [if_pos hne]
  apply Clean_isAbs
  unfold IsAbs at h ⊢
  simp only [stringsJoin, String.data_append]
  cases hd : directoryPath.data with
  | nil => simp [hd] at h
  | cons c rest =>
    rw [hd] at h
    simpa using h

/-- C6, as the specification states it, fails: called with the relative path `photos`,
`GetImageFiles` succeeds and returns `photos/a.png` and `photos/C.JPG`, which are not
absolute. -/
theorem GetImageFiles_relative_paths :
    (GetImageFiles (photosHost mixedEntries ("", none)) NewImageViewerService "photos").err
      = none ∧
    (GetImageFiles (photosHost mixedEntries ("", none)) NewImageViewerService "photos").value
      = ["photos/a.png", "photos/C.JPG"] ∧
    ¬ (∀ p ∈ (GetImageFiles (photosHost mixedEntries ("", none)) NewImageViewerService
        "photos").value, IsAbs p = true) := by
  decide

/-- C6, amended: when the input directory path is absolute, every path in the list that
`GetImageFiles` returns is absolute (so in particular on every successful call with an
absolute input path). -/
theorem GetImageFiles_absolute_paths (host : Host) (s : ImageViewerService)
    (directoryPath : String) (habs : IsAbs directoryPath = true) :
    ∀ p ∈ (GetImageFiles host s directoryPath).value, IsAbs p = true := by
  intro p hp
  unfold GetImageFiles at hp
  split at hp
  · simp at hp
  · split at hp
    · simp at hp
    · split at hp
      · simp at hp
      · split at hp
        · simp at hp
        · simp only at hp
          split at hp
          · simp at hp
          · simp only [imagePathsLoop_eq, List.nil_append, List.mem_map] at hp
            obtain ⟨e, _, rfl⟩ := hp
            exact Join_isAbs directoryPath e.name habs

/-- C6 amended, on the absolute path `/photos`. -/
theorem GetImageFiles_absolute_paths_witness :
    IsAbs "/photos" = true ∧
    (GetImageFiles (photosHost mixedEntries ("", none)) NewImageViewerService "/photos").err
      = none ∧
    "/photos/C.JPG" ∈
      (GetImageFiles (photosHost mixedEntries ("", none)) NewImageViewerService "/photos").value ∧
    IsAbs "/photos/C.JPG" = true :=
  ⟨by decide, by decide, by decide,
    GetImageFiles_absolute_paths (photosHost mixedEntries ("", none)) NewImageViewerService
      "/photos" (by decide) "/photos/C.JPG" (by decide)⟩

/-! ### Lowering, extensions and the case of letters -/

theorem char_eq_of_toNat_eq {c d : Char} (h : c.toNat = d.toNat) : c = d := by
  rw [← Char.ofNat_toNat c, ← Char.ofNat_toNat d, h]

theorem lowerASCIIByte_eq (tbl : Char → Char) (c : Char) (h : c.toNat < 0x80) :
    lowerASCIIByte c = unicodeToLower tbl c := by
  unfold lowerASCIIByte unicodeToLower
  have h7 : c.toNat ≤ 0x7F := by omega
  rw [if_pos h7]

theorem unicodeToLower_id_of_not_upper (tbl : Char → Char) (c : Char) (h : c.toNat < 0x80)
    (hu : ¬ ('A'.toNat ≤ c.toNat ∧ c.toNat ≤ 'Z'.toNat)) : unicodeToLower tbl c = c := by
  unfold unicodeToLower
  have h7 : c.toNat ≤ 0x7F := by omega
  rw [if_pos h7, if_neg hu]

/-- The three branches of `strings.ToLower` all compute the rune-wise image under
`unicode.ToLower`. -/
theorem ToLower_data (tbl : Char → Char) (s : String) :
    (ToLower tbl s).data = s.data.map (unicodeToLower tbl) := by
  unfold ToLower
  simp only
  split
  · rename_i hascii
    rw [List.all_eq_true] at hascii
    split
    · rename_i hup
      have hup1 : ∀ c ∈ s.data, ¬ ('A'.toNat ≤ c.toNat ∧ c.toNat ≤ 'Z'.toNat) := by
        intro c hc hcu
        have hany : (s.data.any fun c => decide ('A'.toNat ≤ c.toNat ∧ c.toNat ≤ 'Z'.toNat)) = true :=
          List.any_eq_true.2 ⟨c, hc, decide_eq_true hcu⟩
        rw [hany] at hup
        exact absurd hup (by decide)
      symm
      conv_rhs => rw [← List.map_id s.data]
      apply List.map_congr_left
      intro c hc
      have h1 : c.toNat < 0x80 := by simpa using hascii c hc
      simpa using unicodeToLower_id_of_not_upper tbl c h1 (hup1 c hc)
    · apply List.map_congr_left
      intro c hc
      have h1 : c.toNat < 0x80 := by simpa using hascii c hc
      exact lowerASCIIByte_eq tbl c h1
  · rfl

theorem unicodeToLower_slash (tbl : Char → Char) : unicodeToLower tbl '/' = '/' := by
  unfold unicodeToLower
  rw [if_pos (by decide), if_neg (by decide)]

theorem unicodeToLower_dot (tbl : Char → Char) : unicodeToLower tbl '.' = '.' := by
  unfold unicodeToLower
  rw [if_pos (by decide), if_neg (by decide)]

theorem extLoop_append (r q acc : List Char) (hdot : '.' ∉ r) :
    extLoop (r ++ q) acc = if '/' ∈ r then [] else extLoop q (r.reverse ++ acc) := by
  induction r generalizing acc with
  | nil => simp
  | cons c r ih =>
    have hc : c ≠ '.' := fun h => hdot (by simp [h])
    have hr : '.' ∉ r := fun h => hdot (List.mem_cons_of_mem _ h)
    rw [List.cons_append, extLoop]
    simp only [IsPathSeparator, beq_iff_eq]
    by_cases hs : c = '/'
    · simp [hs]
    · rw [if_neg hs, if_neg hc, ih _ hr]
      have hs1 : ¬ '/' = c := fun h => hs h.symm
      simp [List.mem_cons, hs1]

theorem lastDotSuffixChars_none (l : List Char) :
    lastDotSuffixChars l = none ↔ '.' ∉ l := by
  induction l with
  | nil => simp [lastDotSuffixChars]
  | cons c cs ih =>
    unfold lastDotSuffixChars
    cases h : lastDotSuffixChars cs with
    | some t =>
      have hin : '.' ∈ cs := by
        by_contra hn
        rw [ih.2 hn] at h
        exact Option.noConfusion h
      simp [hin]
    | none =>
      have hn : '.' ∉ cs := ih.1 h
      by_cases hc : c = '.'
      · simp [hc]
      · have hc1 : ¬ '.' = c := fun h => hc h.symm
        simp [hc, hc1, hn]

theorem lastDotSuffixChars_append (p t : List Char) (ht : '.' ∉ t) :
    lastDotSuffixChars (p ++ '.' :: t) = some ('.' :: t) := by
  induction p with
  | nil =>
    simp [lastDotSuffixChars, (lastDotSuffixChars_none t).2 ht]
  | cons c p ih =>
    simp only [List.cons_append]
    unfold lastDotSuffixChars
    rw [ih]

theorem lastDotSuffixChars_some (l x : List Char) (h : lastDotSuffixChars l = some x) :
    ∃ p t, l = p ++ '.' :: t ∧ '.' ∉ t ∧ x = '.' :: t := by
  induction l with
  | nil => simp [lastDotSuffixChars] at h
  | cons c cs ih =>
    unfold lastDotSuffixChars at h
    cases hcs : lastDotSuffixChars cs with
    | some t =>
      rw [hcs] at h
      simp only [Option.some.injEq] at h
      subst h
      obtain ⟨p, t1, hl, hdot, hx⟩ := ih hcs
      exact ⟨c :: p, t1, by simp [hl], hdot, hx⟩
    | none =>
      rw [hcs] at h
      simp only at h
      by_cases hc : c = '.'
      · rw [if_pos hc] at h
        simp only [Option.some.injEq] at h
        subst hc
        exact ⟨[], cs, by simp, (lastDotSuffixChars_none cs).1 hcs, h.symm⟩
      · rw [if_neg hc] at h
        exact Option.noConfusion h

/-- `filepath.Ext` in terms of the suffix at the last dot: it is that suffix unless the
name has no dot or a separator follows its last dot, and then it is empty. -/
theorem Ext_data (name : String) :
    (Ext name).data =
      match lastDotSuffixChars name.data with
      | none => []
      | some x => if '/' ∈ x then [] else x := by
  unfold Ext
  simp only
  cases h : lastDotSuffixChars name.data with
  | none =>
    have hdot : '.' ∉ name.data.reverse := by
      rw [List.mem_reverse]
      exact (lastDotSuffixChars_none _).1 h
    have := extLoop_append name.data.reverse [] [] hdot
    rw [List.append_nil] at this
    rw [this]
    simp [extLoop]
  | some x =>
    obtain ⟨p, t, hl, hdot, hx⟩ := lastDotSuffixChars_some _ _ h
    subst hx
    have hdot1 : '.' ∉ t.reverse := by rwa [List.mem_reverse]
    rw [hl, List.reverse_append, List.reverse_cons, List.append_assoc,
      extLoop_append _ _ _ hdot1]
    simp only [List.mem_reverse, List.singleton_append, List.reverse_reverse, List.append_nil,
      List.mem_cons]
    have hne : ¬ '/' = '.' := by decide
    by_cases hs : '/' ∈ t
    · simp [hs]
    · simp [hs, hne, extLoop, IsPathSeparator]

/-- The test of the loop of `GetImageFiles` on a name, in terms of the suffix at the
last dot of the name. -/
theorem supported_iff_lastDotSuffix (tbl : Char → Char) (name : String) :
    supportedExtensions (ToLower tbl (Ext name)) =
      (match lastDotSuffix name with
        | some sfx => decide (ToLower tbl sfx ∈ [".jpg", ".jpeg", ".png", ".gif"])
        | none => false) := by
  have hempty : supportedExtensions (ToLower tbl "") = false := by
    have : ToLower tbl "" = "" := by
      apply String.ext
      rw [ToLower_data]
      rfl
    rw [this]
    decide
  have hext := Ext_data name
  unfold lastDotSuffix
  cases h : lastDotSuffixChars name.data with
  | none =>
    rw [h] at hext
    have : Ext name = "" := String.ext hext
    rw [this, hempty]
    rfl
  | some x =>
    rw [h] at hext
    simp only [Option.map_some']
    by_cases hs : '/' ∈ x
    · simp only [hs, if_true] at hext
      have : Ext name = "" := String.ext hext
      rw [this, hempty]
      symm
      rw [decide_eq_false_iff_not]
      intro hmem
      have hin : '/' ∈ (ToLower tbl ⟨x⟩).data := by
        rw [ToLower_data]
        exact List.mem_map.2 ⟨'/', hs, unicodeToLower_slash tbl⟩
      simp only [List.mem_cons, List.mem_singleton, List.not_mem_nil, or_false] at hmem
      rcases hmem with h1 | h1 | h1 | h1 <;> rw [h1] at hin <;> exact absurd hin (by decide)
    · simp only [hs, if_false] at hext
      have : Ext name = ⟨x⟩ := String.ext hext
      rw [this, Bool.eq_iff_iff, supportedExtensions_iff, decide_eq_true_iff]

theorem unicodeToLower_upper (tbl : Char → Char) (c d : Char)
    (hc : 65 ≤ c.toNat ∧ c.toNat ≤ 90) (hd : c.toNat + 32 = d.toNat) :
    unicodeToLower tbl c = d ∧ unicodeToLower tbl d = d := by
  have hA : 'A'.toNat = 65 := rfl
  have hZ : 'Z'.toNat = 90 := rfl
  have ha : 'a'.toNat = 97 := rfl
  constructor
  · unfold unicodeToLower
    rw [hA, hZ, ha, if_pos (by omega), if_pos hc]
    have : c.toNat + (97 - 65) = d.toNat := by omega
    rw [this, Char.ofNat_toNat]
  · unfold unicodeToLower
    rw [hA, hZ, ha, if_pos (by omega), if_neg (by omega)]

theorem asciiCaseVariantChar_lower (tbl : Char → Char) (c d : Char)
    (h : asciiCaseVariantChar c d = true) :
    unicodeToLower tbl c = unicodeToLower tbl d := by
  unfold asciiCaseVariantChar isASCIILetter at h
  simp only [Bool.or_eq_true, Bool.and_eq_true, beq_iff_eq, decide_eq_true_eq] at h
  rcases h with h | ⟨⟨hc, hd⟩, h | h⟩
  · rw [h]
  · have := unicodeToLower_upper tbl c d (by omega) h
    rw [this.1, this.2]
  · have := unicodeToLower_upper tbl d c (by omega) h
    rw [this.1, this.2]

theorem asciiCaseVariantChar_special (c d : Char) (h : asciiCaseVariantChar c d = true) :
    (c = '/' ↔ d = '/') ∧ (c = '.' ↔ d = '.') := by
  have hs : '/'.toNat = 47 := rfl
  have hp : '.'.toNat = 46 := rfl
  unfold asciiCaseVariantChar isASCIILetter at h
  simp only [Bool.or_eq_true, Bool.and_eq_true, beq_iff_eq, decide_eq_true_eq] at h
  rcases h with h | ⟨⟨hc, hd⟩, _⟩
  · rw [h]
    exact ⟨Iff.rfl, Iff.rfl⟩
  · refine ⟨⟨?_, ?_⟩, ⟨?_, ?_⟩⟩ <;> intro he <;> exfalso <;> subst he <;> omega

theorem asciiCaseVariantChars_iff (a b : List Char) :
    asciiCaseVariantChars a b = true ↔
      List.Forall₂ (fun c d => asciiCaseVariantChar c d = true) a b := by
  induction a generalizing b with
  | nil =>
    cases b with
    | nil => simp [asciiCaseVariantChars]
    | cons d ds => simp [asciiCaseVariantChars]
  | cons c cs ih =>
    cases b with
    | nil => simp [asciiCaseVariantChars]
    | cons d ds => simp [asciiCaseVariantChars, ih]

theorem extLoop_rel {ra rb : List Char}
    (h : List.Forall₂ (fun c d => asciiCaseVariantChar c d = true) ra rb) :
    ∀ {ta tb : List Char}, List.Forall₂ (fun c d => asciiCaseVariantChar c d = true) ta tb →
      List.Forall₂ (fun c d => asciiCaseVariantChar c d = true) (extLoop ra ta) (extLoop rb tb) := by
  induction h with
  | nil => intro ta tb _; exact List.Forall₂.nil
  | @cons c d ra rb hcd _ ih =>
    intro ta tb ht
    obtain ⟨hsl, hdt⟩ := asciiCaseVariantChar_special c d hcd
    rw [extLoop, extLoop]
    simp only [IsPathSeparator, beq_iff_eq]
    by_cases hs : c = '/'
    · rw [if_pos hs, if_pos (hsl.1 hs)]
      exact List.Forall₂.nil
    · rw [if_neg hs, if_neg (fun h => hs (hsl.2 h))]
      by_cases hp : c = '.'
      · rw [if_pos hp, if_pos (hdt.1 hp)]
        exact List.Forall₂.cons hcd ht
      · rw [if_neg hp, if_neg (fun h => hp (hdt.2 h))]
        exact ih (List.Forall₂.cons hcd ht)

/-- Two names that differ only in the case of ASCII letters have the same lowered
extension. -/
theorem ToLower_Ext_caseVariant (tbl : Char → Char) (n n1 : String)
    (h : asciiCaseVariant n n1 = true) :
    ToLower tbl (Ext n) = ToLower tbl (Ext n1) := by
  unfold asciiCaseVariant at h
  rw [asciiCaseVariantChars_iff] at h
  have hrev := List.rel_reverse h
  have hext : List.Forall₂ (fun c d => asciiCaseVariantChar c d = true)
      (Ext n).data (Ext n1).data := extLoop_rel hrev List.Forall₂.nil
  apply String.ext
  rw [ToLower_data, ToLower_data]
  generalize (Ext n).data = x at hext
  generalize (Ext n1).data = y at hext
  induction hext with
  | nil => rfl
  | cons hcd _ ih =>
    rw [List.map_cons, List.map_cons, ih, asciiCaseVariantChar_lower tbl _ _ hcd]

theorem extLoop_map (f : Char → Char) (hs : ∀ c, f c = '/' ↔ c = '/')
    (hd : ∀ c, f c = '.' ↔ c = '.') (rev tail : List Char) :
    extLoop (rev.map f) (tail.map f) = (extLoop rev tail).map f := by
  induction rev generalizing tail with
  | nil => rfl
  | cons c rev ih =>
    rw [List.map_cons, extLoop, extLoop]
    simp only [IsPathSeparator, beq_iff_eq, hs, hd]
    by_cases h1 : c = '/'
    · simp [h1]
    · by_cases h2 : c = '.'
      · simp [h2]
      · rw [if_neg h1, if_neg h2, if_neg h1, if_neg h2, ← ih (c :: tail)]
        rfl

theorem unicodeToLower_upper_ne (c : Char) (hu : 65 ≤ c.toNat ∧ c.toNat ≤ 90) :
    Char.ofNat (c.toNat + (97 - 65)) ≠ '/' ∧ Char.ofNat (c.toNat + (97 - 65)) ≠ '.' := by
  generalize c.toNat = m at hu
  obtain ⟨h1, h2⟩ := hu
  interval_cases m <;> decide

theorem unicodeToLower_special (tbl : Char → Char)
    (htbl : ∀ c : Char, 0x7F < c.toNat → tbl c ≠ '.' ∧ tbl c ≠ '/') (c : Char) :
    (unicodeToLower tbl c = '/' ↔ c = '/') ∧ (unicodeToLower tbl c = '.' ↔ c = '.') := by
  have hs : '/'.toNat = 47 := rfl
  have hp : '.'.toNat = 46 := rfl
  have hA : 'A'.toNat = 65 := rfl
  have hZ : 'Z'.toNat = 90 := rfl
  have ha : 'a'.toNat = 97 := rfl
  refine ⟨⟨?_, fun h => h ▸ unicodeToLower_slash tbl⟩, ⟨?_, fun h => h ▸ unicodeToLower_dot tbl⟩⟩
  · unfold unicodeToLower
    rw [hA, hZ, ha]
    by_cases h7 : c.toNat ≤ 0x7F
    · rw [if_pos h7]
      by_cases hu : 65 ≤ c.toNat ∧ c.toNat ≤ 90
      · rw [if_pos hu]
        intro he
        exact absurd he (unicodeToLower_upper_ne c hu).1
      · rw [if_neg hu]
        exact id
    · rw [if_neg h7]
      intro he
      exact absurd he (htbl c (by omega)).2
  · unfold unicodeToLower
    rw [hA, hZ, ha]
    by_cases h7 : c.toNat ≤ 0x7F
    · rw [if_pos h7]
      by_cases hu : 65 ≤ c.toNat ∧ c.toNat ≤ 90
      · rw [if_pos hu]
        intro he
        exact absurd he (unicodeToLower_upper_ne c hu).2
      · rw [if_neg hu]
        exact id
    · rw [if_neg h7]
      intro he
      exact absurd he (htbl c (by omega)).1

/-- When the lower-case table yields neither a dot nor a separator, taking the extension
commutes with lowering. -/
theorem Ext_ToLower (tbl : Char → Char)
    (htbl : ∀ c : Char, 0x7F < c.toNat → tbl c ≠ '.' ∧ tbl c ≠ '/') (n : String) :
    Ext (ToLower tbl n) = ToLower tbl (Ext n) := by
  apply String.ext
  rw [ToLower_data]
  unfold Ext
  simp only
  rw [ToLower_data, ← List.map_reverse]
  exact extLoop_map (unicodeToLower tbl) (fun c => (unicodeToLower_special tbl htbl c).1)
    (fun c => (unicodeToLower_special tbl htbl c).2) n.data.reverse []

/-- C10: whether an entry that is not a directory is listed depends only on the suffix of
its name that starts at the last dot: on a directory enumerated without error the list
returned holds, in order, the joined paths of the entries that are not directories, whose
name has a dot, and whose suffix from the last dot, lowered, is one of `.jpg`, `.jpeg`,
`.png`, `.gif`.  The last two parts say what `lastDotSuffix` is: it is absent exactly for
a name without a dot, and otherwise it is the part `.t` of the one way to write the name
as `p.t` with no dot in `t`. -/
theorem GetImageFiles_last_dot_suffix (host : Host) (s : ImageViewerService)
    (directoryPath : String) (fileInfo : FileInfo) (E : List DirEntry)
    (hne : directoryPath ≠ "") (hstat : host.stat directoryPath = .ok fileInfo)
    (hdir : fileInfo.isDir = true) (hread : host.readDir directoryPath = (E, none)) :
    (GetImageFiles host s directoryPath).value =
      (E.filter (fun e =>
          !e.isDir &&
          (match lastDotSuffix e.name with
            | some sfx =>
              decide (ToLower host.lowerCase sfx ∈ [".jpg", ".jpeg", ".png", ".gif"])
            | none => false))).map
        (fun e => Join [directoryPath, e.name]) ∧
    (∀ name : String, lastDotSuffix name = none ↔ '.' ∉ name.data) ∧
    (∀ name sfx : String, lastDotSuffix name = some sfx ↔
      ∃ p t, name.data = p ++ '.' :: t ∧ '.' ∉ t ∧ sfx.data = '.' :: t) := by
  refine ⟨?_, ?_, ?_⟩
  · rw [(GetImageFiles_enumerated host s directoryPath fileInfo E hne hstat hdir hread).1]
    congr 2
    funext e
    rw [supported_iff_lastDotSuffix]
  · intro name
    unfold lastDotSuffix
    rw [Option.map_eq_none', lastDotSuffixChars_none]
  · intro name sfx
    unfold lastDotSuffix
    constructor
    · intro h
      rw [Option.map_eq_some'] at h
      obtain ⟨x, hx, rfl⟩ := h
      obtain ⟨p, t, hl, hdot, rfl⟩ := lastDotSuffixChars_some _ _ hx
      exact ⟨p, t, hl, hdot, rfl⟩
    · rintro ⟨p, t, hl, hdot, hsfx⟩
      rw [hl, lastDotSuffixChars_append p t hdot, Option.map_some', ← hsfx]

/-- C10, on the names of the claim: `png` and `a.png.txt` are not listed, `a.txt.png` and
`.png` are. -/
theorem GetImageFiles_last_dot_suffix_witness :
    ("/photos" : String) ≠ "" ∧
    (photosHost dotEntries ("", none)).stat "/photos" = .ok { isDir := true } ∧
    (photosHost dotEntries ("", none)).readDir "/photos" = (dotEntries, none) ∧
    (GetImageFiles (photosHost dotEntries ("", none)) NewImageViewerService "/photos").value
      = ["/photos/a.txt.png", "/photos/.png"] :=
  ⟨by decide, rfl, rfl,
    (GetImageFiles_last_dot_suffix (photosHost dotEntries ("", none)) NewImageViewerService
      "/photos" { isDir := true } dotEntries (by decide) rfl rfl rfl).1.trans (by decide)⟩

/-- C9: matching is insensitive to the case of ASCII letters, as a property of whole
names.  Take two directories, enumerated without error on hosts with the same lower-case
table, that differ in one regular file only, named `n` in one and `n1` in the other,
where `n1` is `n` with the case of some ASCII letters changed.  Then either both calls
list that file (at the same place, among the same other paths) or neither does, and one
call succeeds exactly when the other does.  Moreover, when the lower-case table yields
neither a dot nor a separator, taking the extension commutes with lowering. -/
theorem GetImageFiles_case_insensitive (host host1 : Host) (s : ImageViewerService)
    (directoryPath : String) (fileInfo fileInfo1 : FileInfo) (before after : List DirEntry)
    (n n1 : String)
    (hne : directoryPath ≠ "")
    (hstat : host.stat directoryPath = .ok fileInfo) (hdir : fileInfo.isDir = true)
    (hstat1 : host1.stat directoryPath = .ok fileInfo1) (hdir1 : fileInfo1.isDir = true)
    (hread : host.readDir directoryPath =
      (before ++ { name := n, isDir := false } :: after, none))
    (hread1 : host1.readDir directoryPath =
      (before ++ { name := n1, isDir := false } :: after, none))
    (htbl : host1.lowerCase = host.lowerCase)
    (hvar : asciiCaseVariant n n1 = true) :
    (∃ A B : List String,
      ((GetImageFiles host s directoryPath).value = A ++ Join [directoryPath, n] :: B ∧
        (GetImageFiles host1 s directoryPath).value = A ++ Join [directoryPath, n1] :: B) ∨
      ((GetImageFiles host s directoryPath).value = A ++ B ∧
        (GetImageFiles host1 s directoryPath).value = A ++ B)) ∧
    ((GetImageFiles host s directoryPath).err = none ↔
      (GetImageFiles host1 s directoryPath).err = none) ∧
    ((∀ c : Char, 0x7F < c.toNat → host.lowerCase c ≠ '.' ∧ host.lowerCase c ≠ '/') →
      Ext (ToLower host.lowerCase n) = ToLower host.lowerCase (Ext n)) := by
  obtain ⟨hv, he, _⟩ := GetImageFiles_enumerated host s directoryPath fileInfo _ hne hstat
    hdir hread
  obtain ⟨hv1, he1, _⟩ := GetImageFiles_enumerated host1 s directoryPath fileInfo1 _ hne
    hstat1 hdir1 hread1
  have hsame := ToLower_Ext_caseVariant host.lowerCase n n1 hvar
  rw [htbl] at hv1
  rw [List.filter_append, List.filter_cons, List.map_append] at hv hv1
  have hlist : ∃ A B : List String,
      ((GetImageFiles host s directoryPath).value = A ++ Join [directoryPath, n] :: B ∧
        (GetImageFiles host1 s directoryPath).value = A ++ Join [directoryPath, n1] :: B) ∨
      ((GetImageFiles host s directoryPath).value = A ++ B ∧
        (GetImageFiles host1 s directoryPath).value = A ++ B) := by
    refine ⟨(before.filter (fun e =>
          !e.isDir && supportedExtensions (ToLower host.lowerCase (Ext e.name)))).map
        (fun e => Join [directoryPath, e.name]),
      (after.filter (fun e =>
          !e.isDir && supportedExtensions (ToLower host.lowerCase (Ext e.name)))).map
        (fun e => Join [directoryPath, e.name]), ?_⟩
    by_cases hk : supportedExtensions (ToLower host.lowerCase (Ext n)) = true
    · left
      have hk1 : supportedExtensions (ToLower host.lowerCase (Ext n1)) = true := by
        rw [← hsame]; exact hk
      simp only [hk, hk1, Bool.not_false, Bool.and_self, if_true, List.map_cons] at hv hv1
      exact ⟨hv, hv1⟩
    · right
      have hk1 : ¬ supportedExtensions (ToLower host.lowerCase (Ext n1)) = true := by
        rw [← hsame]; exact hk
      simp only [hk, hk1, Bool.not_false, Bool.and_false, Bool.false_eq_true, if_false]
        at hv hv1
      exact ⟨hv, hv1⟩
  refine ⟨hlist, ?_, fun h => Ext_ToLower host.lowerCase h n⟩
  rw [he, he1]
  obtain ⟨A, B, ⟨h1, h2⟩ | ⟨h1, h2⟩⟩ := hlist
  · rw [h1, h2]
    simp
  · rw [h1, h2]

/-- C9, on `a.PNG` and `a.png` after a file `b.txt`: both are listed. -/
theorem GetImageFiles_case_insensitive_witness :
    ("/photos" : String) ≠ "" ∧ asciiCaseVariant "a.PNG" "a.png" = true ∧
    (GetImageFiles
      (photosHost [{ name := "b.txt", isDir := false }, { name := "a.PNG", isDir := false }]
        ("", none)) NewImageViewerService "/photos").err = none ∧
    (GetImageFiles
      (photosHost [{ name := "b.txt", isDir := false }, { name := "a.png", isDir := false }]
        ("", none)) NewImageViewerService "/photos").err = none ∧
    (GetImageFiles (photosHost caseEntries ("", none)) NewImageViewerService "/photos").value
      = ["/photos/a.PNG", "/photos/a.Png", "/photos/a.png"] ∧
    Ext (ToLower (fun r => r) "a.PNG") = ToLower (fun r => r) (Ext "a.PNG") :=
  have h := GetImageFiles_case_insensitive
    (photosHost [{ name := "b.txt", isDir := false }, { name := "a.PNG", isDir := false }]
      ("", none))
    (photosHost [{ name := "b.txt", isDir := false }, { name := "a.png", isDir := false }]
      ("", none))
    NewImageViewerService "/photos" { isDir := true } { isDir := true }
    [{ name := "b.txt", isDir := false }] [] "a.PNG" "a.png"
    (by decide) rfl rfl rfl rfl rfl rfl rfl (by decide)
  ⟨by decide, by decide, by decide, h.2.1.1 (by decide), by decide,
    h.2.2 (fun c hc =>
      ⟨fun he => by
        have hdot : c = '.' := he
        subst hdot
        exact absurd hc (by decide),
      fun he => by
        have hsep : c = '/' := he
        subst hsep
        exact absurd hc (by decide)⟩)⟩

end Viewer
